import Mathlib

/-!
Verification development for the OS-aware path algebra of
`src/util/src/file_paths/os_based.rs`.

Paths are embedded as lists of characters (`FPath`).  The functions of
`os_based.rs` (`resolve`, `resolve_n`, `resolve_one`, `is_absolute`,
`relative`, the two static prefix matchers and the UNC marker) are
translated directly from the source.  The generic, prefix-less segment
algebra (the parent module `rialight_util::file_paths`: `resolve`,
`relative` and `STARTS_WITH_PATH_SEPARATOR`) is not part of the sources,
so it is modelled from the specification's SegmentAlgebra contract
(spec sections 4.2 and 4.6).
-/

/-- A path is an immutable sequence of characters. -/
abbrev FPath : Type := List Char

/-- Whether a character is a path separator (forward slash or backslash). -/
def isSep (c : Char) : Bool := c == '/' || c == '\\'

/-- Whether a character is an ASCII letter, as in the drive pattern `[A-Za-z]:`. -/
def isAsciiLetter (c : Char) : Bool :=
  decide (('A' ≤ c ∧ c ≤ 'Z') ∨ ('a' ≤ c ∧ c ≤ 'z'))

/-- Modelled from the spec: the parent module's `STARTS_WITH_PATH_SEPARATOR`
matcher (not under `src/`); a path is separator-led when its first character
is `/` or `\` (spec section 4.6, `Default` mode). -/
def startsWithSep (l : FPath) : Bool :=
  match l with
  | [] => false
  | c :: _ => isSep c

/-- Modelled from the spec: one step of segment splitting for the generic
SegmentAlgebra (spec section 4.2), folded from the right.  The state is the
segment currently being read together with the finished segments. -/
def splitStep (c : Char) (acc : FPath × List FPath) : FPath × List FPath :=
  if isSep c then ([], if acc.1 = [] then acc.2 else acc.1 :: acc.2)
  else (c :: acc.1, acc.2)

/-- Modelled from the spec: SegmentAlgebra segment splitting (not under
`src/`): the non-empty components of a path between `/` or `\` separators
(spec sections 3 and 4.2). -/
def splitSegs (l : FPath) : List FPath :=
  if (l.foldr splitStep ([], [])).1 = [] then (l.foldr splitStep ([], [])).2
  else (l.foldr splitStep ([], [])).1 :: (l.foldr splitStep ([], [])).2

/-- Modelled from the spec: SegmentAlgebra re-joining of segments with the
single canonical separator `/` (spec section 4.2). -/
def joinSegs : List FPath → FPath
  | [] => []
  | s :: rest =>
    match rest with
    | [] => s
    | _ :: _ => s ++ '/' :: joinSegs rest

/-- Modelled from the spec: one step of `.`/`..` collapsing over a stack of
segments (head of the accumulator is the most recent segment): `.` is
dropped, `..` pops the previous real segment when one exists and is
otherwise retained (spec sections 4.2 and 9). -/
def normStep (acc : List FPath) (s : FPath) : List FPath :=
  if s = ['.'] then acc
  else if s = ['.', '.'] then
    if acc = [] then [s]
    else if acc.headI = ['.', '.'] then s :: acc else acc.tail
  else s :: acc

/-- Modelled from the spec: SegmentAlgebra normalization of a segment
sequence: collapse `.` and `..` left to right (spec section 4.2). -/
def normSegs (l : List FPath) : List FPath :=
  (l.foldl normStep []).reverse

/-- Modelled from the spec: rendering of a normalized segment sequence; an
absolute result begins with exactly one `/`, a relative one never does
(spec section 4.2). -/
def renderPath (ab : Bool) (segs : List FPath) : FPath :=
  (if ab then ['/'] else []) ++ joinSegs segs

/-- Modelled from the spec: the parent module's generic resolver
`rialight_util::file_paths::resolve` (not under `src/`): an absolute
addition is returned fully normalized; otherwise the base's segments are
concatenated with the addition's and normalized, the result keeping the
base's absoluteness (spec section 4.2). -/
def fpResolve (p1 p2 : FPath) : FPath :=
  if startsWithSep p2 then renderPath true (normSegs (splitSegs p2))
  else renderPath (startsWithSep p1) (normSegs (splitSegs p1 ++ splitSegs p2))

/-- Modelled from the spec: drop the longest shared prefix of two segment
sequences, returning both remainders (spec section 4.2, `relative_generic`). -/
def dropCommon : List FPath → List FPath → List FPath × List FPath
  | a :: as, b :: bs => if a = b then dropCommon as bs else (a :: as, b :: bs)
  | as, bs => (as, bs)

/-- Modelled from the spec: the parent module's generic
`rialight_util::file_paths::relative` (not under `src/`): past the longest
shared segment sequence, one `..` for every remaining segment of `from`,
then the remaining segments of `to`, joined with `/`; empty when nothing
remains (spec section 4.2, `relative_generic`). -/
def fpRelative (from_path to_path : FPath) : FPath :=
  joinSegs
    (((dropCommon (normSegs (splitSegs from_path)) (normSegs (splitSegs to_path))).1.map
        (fun _ => ['.', '.'])) ++
      (dropCommon (normSegs (splitSegs from_path)) (normSegs (splitSegs to_path))).2)

/-- A well-formed segment: non-empty and free of separator characters
(spec section 3, segment sequence invariant). -/
def goodSeg (s : FPath) : Prop := s ≠ [] ∧ ∀ c ∈ s, isSep c = false

/-- The manipulation mode enumeration `OsPathManipulation` of `os_based.rs`. -/
inductive OsPathManipulation where
  | Default
  | Windows

/-- The static `UNC_PREFIX` string of `os_based.rs`: two backslashes. -/
def uncMarker : FPath := ['\\', '\\']

/-- The static matcher `STARTS_WITH_WINDOWS_PATH_PREFIX` of `os_based.rs`:
`find` on the anchored pattern `^((\\\\)|([A-Za-z]:))`, returning the matched
text (UNC marker or drive marker) or none.  Alternatives are tried in the
pattern's order. -/
def winPreFind : FPath → Option FPath
  | [] => none
  | [_] => none
  | a :: b :: _ =>
    if a = '\\' ∧ b = '\\' then some ['\\', '\\']
    else if isAsciiLetter a ∧ b = ':' then some [a, ':']
    else none

/-- The static matcher `STARTS_WITH_WINDOWS_PATH_PREFIX_OR_SLASH` of
`os_based.rs`: `find` on `^((\\\\)|([A-Za-z]:)|[\/\\]([^\\]|$))`, returning
the matched text.  Note that the third alternative consumes the separator
together with the following non-backslash character when one exists. -/
def winPreOrSlashFind : FPath → Option FPath
  | [] => none
  | [a] => if isSep a then some [a] else none
  | a :: b :: _ =>
    if a = '\\' ∧ b = '\\' then some ['\\', '\\']
    else if isAsciiLetter a ∧ b = ':' then some [a, ':']
    else if isSep a ∧ b ≠ '\\' then some [a, b]
    else none

/-- The strip step of `resolve` (`os_based.rs` line 77):
`STARTS_WITH_WINDOWS_PATH_PREFIX.replace(path, "/")`, replacing the matched
leading UNC or drive marker with a single `/`, a no-op without a match. -/
def stripWin (p : FPath) : FPath :=
  match winPreFind p with
  | some pre => '/' :: p.drop pre.length
  | none => p

/-- Reattachment of a chosen prefix to a generically resolved result
(`os_based.rs` lines 79-82): for the UNC marker the result's leading
separator is dropped first, otherwise plain concatenation. -/
def reattach (pre r : FPath) : FPath :=
  if pre = uncMarker then uncMarker ++ r.drop 1 else pre ++ r

/-- The function `resolve` of `os_based.rs` (lines 65-85). -/
def resolve (p1 p2 : FPath) (m : OsPathManipulation) : FPath :=
  match m with
  | OsPathManipulation.Default => fpResolve p1 p2
  | OsPathManipulation.Windows =>
    match ([p1, p2].filter (fun p => (winPreFind p).isSome)).getLast? with
    | none => fpResolve p1 p2
    | some lastP =>
      reattach ((winPreFind lastP).getD []) (fpResolve (stripWin p1) (stripWin p2))

/-- The function `resolve_n` of `os_based.rs` (lines 89-99). -/
def resolve_n (paths : List FPath) (m : OsPathManipulation) : FPath :=
  match paths with
  | [] => []
  | [p] => resolve p [] m
  | p :: q :: rest => rest.foldl (fun a b => resolve a b m) (resolve p q m)

/-- The function `resolve_one` of `os_based.rs` (lines 103-105). -/
def resolve_one (p : FPath) (m : OsPathManipulation) : FPath :=
  resolve_n [p] m

/-- The function `is_absolute` of `os_based.rs` (lines 109-114). -/
def is_absolute (p : FPath) (m : OsPathManipulation) : Bool :=
  match m with
  | OsPathManipulation.Default => startsWithSep p
  | OsPathManipulation.Windows => (winPreOrSlashFind p).isSome

/-- The re-rooting step of `relative` (`os_based.rs` lines 143-145): a
stripped remainder that does not already start with a separator gets a
leading `/`. -/
def ensureLeadingSep (p : FPath) : FPath :=
  if startsWithSep p then p else '/' :: p

/-- The function `relative` of `os_based.rs` (lines 127-150).  The Windows
branch panics when either argument is not absolute; the panic is modelled
as `none`. -/
def relative (from_path to_path : FPath) (m : OsPathManipulation) : Option FPath :=
  match m with
  | OsPathManipulation.Default => some (fpRelative from_path to_path)
  | OsPathManipulation.Windows =>
    if is_absolute from_path OsPathManipulation.Windows
        && is_absolute to_path OsPathManipulation.Windows then
      if (winPreOrSlashFind from_path).getD [] ≠ (winPreOrSlashFind to_path).getD [] then
        some (resolve_one to_path OsPathManipulation.Windows)
      else
        some (fpRelative
          (ensureLeadingSep (from_path.drop ((winPreOrSlashFind from_path).getD []).length))
          (ensureLeadingSep (to_path.drop ((winPreOrSlashFind from_path).getD []).length)))
    else none

/-! Lemmas about segment splitting and joining. -/

theorem joinSegs_nil : joinSegs [] = [] := rfl

theorem joinSegs_singleton (s : FPath) : joinSegs [s] = s := rfl

theorem joinSegs_cons_cons (s t : FPath) (r : List FPath) :
    joinSegs (s :: t :: r) = s ++ '/' :: joinSegs (t :: r) := rfl

theorem isSep_slash : isSep '/' = true := by decide

theorem splitFold_inv (l : FPath) :
    (∀ c ∈ (l.foldr splitStep ([], [])).1, isSep c = false) ∧
    (∀ s ∈ (l.foldr splitStep ([], [])).2, goodSeg s) := by
  induction l with
  | nil => simp
  | cons c rest ih =>
    obtain ⟨h1, h2⟩ := ih
    rw [List.foldr_cons]
    by_cases hc : isSep c = true
    · simp only [splitStep, hc, if_true]
      refine ⟨by simp, ?_⟩
      intro s hs
      by_cases hcur : (rest.foldr splitStep ([], [])).1 = []
      · rw [if_pos hcur] at hs
        exact h2 s hs
      · rw [if_neg hcur] at hs
        rcases List.mem_cons.mp hs with hs | hs
        · exact hs ▸ ⟨hcur, h1⟩
        · exact h2 s hs
    · simp only [splitStep, hc, if_false]
      refine ⟨?_, h2⟩
      intro d hd
      rcases List.mem_cons.mp hd with hd | hd
      · subst hd
        exact Bool.not_eq_true _ ▸ hc
      · exact h1 d hd

theorem splitSegs_good (l : FPath) : ∀ s ∈ splitSegs l, goodSeg s := by
  obtain ⟨h1, h2⟩ := splitFold_inv l
  intro s hs
  unfold splitSegs at hs
  by_cases hcur : (l.foldr splitStep ([], [])).1 = []
  · rw [if_pos hcur] at hs
    exact h2 s hs
  · rw [if_neg hcur] at hs
    rcases List.mem_cons.mp hs with hs | hs
    · exact hs ▸ ⟨hcur, h1⟩
    · exact h2 s hs

theorem splitSegs_sep_cons (c : Char) (l : FPath) (hc : isSep c = true) :
    splitSegs (c :: l) = splitSegs l := by
  unfold splitSegs
  rw [List.foldr_cons]
  simp [splitStep, hc]

theorem splitFold_noSep (s : FPath) (hs : ∀ c ∈ s, isSep c = false)
    (acc : FPath × List FPath) : s.foldr splitStep acc = (s ++ acc.1, acc.2) := by
  induction s with
  | nil => simp
  | cons c cs ih =>
    rw [List.foldr_cons, ih (fun d hd => hs d (List.mem_cons_of_mem c hd))]
    simp only [splitStep, hs c (List.mem_cons_self c cs), Bool.false_eq_true, if_false]
    rfl

theorem splitFold_join (s : FPath) (rest : List FPath)
    (hgood : ∀ x ∈ s :: rest, goodSeg x) :
    (joinSegs (s :: rest)).foldr splitStep ([], []) = (s, rest) := by
  induction rest generalizing s with
  | nil =>
    rw [joinSegs_singleton, splitFold_noSep s (hgood s (List.mem_cons_self s [])).2]
    simp
  | cons t r ih =>
    rw [joinSegs_cons_cons, List.foldr_append, List.foldr_cons,
      ih t (fun x hx => hgood x (List.mem_cons_of_mem s hx))]
    have htne : t ≠ [] := (hgood t (by simp)).1
    simp only [splitStep, isSep_slash, if_true]
    rw [if_neg htne]
    rw [splitFold_noSep s (hgood s (List.mem_cons_self s _)).2]
    simp

theorem splitSegs_joinSegs (segs : List FPath) (hgood : ∀ s ∈ segs, goodSeg s) :
    splitSegs (joinSegs segs) = segs := by
  cases segs with
  | nil => rfl
  | cons s rest =>
    unfold splitSegs
    rw [splitFold_join s rest hgood]
    exact if_neg (hgood s (List.mem_cons_self s rest)).1

theorem splitSegs_renderPath (ab : Bool) (segs : List FPath)
    (hgood : ∀ s ∈ segs, goodSeg s) : splitSegs (renderPath ab segs) = segs := by
  cases ab with
  | false =>
    show splitSegs ([] ++ joinSegs segs) = segs
    rw [List.nil_append]
    exact splitSegs_joinSegs segs hgood
  | true =>
    show splitSegs (['/'] ++ joinSegs segs) = segs
    rw [List.singleton_append, splitSegs_sep_cons '/' _ isSep_slash]
    exact splitSegs_joinSegs segs hgood

theorem startsWithSep_renderPath (ab : Bool) (segs : List FPath)
    (hgood : ∀ s ∈ segs, goodSeg s) : startsWithSep (renderPath ab segs) = ab := by
  cases ab with
  | true => rfl
  | false =>
    show startsWithSep ([] ++ joinSegs segs) = false
    rw [List.nil_append]
    cases segs with
    | nil => rfl
    | cons s rest =>
      obtain ⟨hne, hsep⟩ := hgood s (List.mem_cons_self s rest)
      cases s with
      | nil => exact absurd rfl hne
      | cons c cs =>
        have hhead : ∃ tl, joinSegs ((c :: cs) :: rest) = c :: tl := by
          cases rest with
          | nil => exact ⟨cs, rfl⟩
          | cons t r => exact ⟨cs ++ '/' :: joinSegs (t :: r), rfl⟩
        obtain ⟨tl, htl⟩ := hhead
        rw [htl]
        show isSep c = false
        exact hsep c (List.mem_cons_self c cs)

/-! Lemmas about the dot-segment normalization. -/

theorem normStep_real (acc : List FPath) (s : FPath) (h1 : s ≠ ['.'])
    (h2 : s ≠ ['.', '.']) : normStep acc s = s :: acc := by
  unfold normStep
  rw [if_neg h1, if_neg h2]

theorem normStep_dot (acc : List FPath) : normStep acc ['.'] = acc := by
  unfold normStep
  rw [if_pos rfl]

theorem normStep_dd_nil : normStep [] ['.', '.'] = [['.', '.']] := by
  unfold normStep
  rw [if_neg (by decide), if_pos rfl, if_pos rfl]

theorem normStep_dd_cons_dd (ts : List FPath) :
    normStep (['.', '.'] :: ts) ['.', '.'] = ['.', '.'] :: ['.', '.'] :: ts := by
  unfold normStep
  rw [if_neg (by decide), if_pos rfl, if_neg (List.cons_ne_nil _ _),
    List.headI_cons, if_pos rfl]

theorem normStep_dd_cons_real (t : FPath) (ts : List FPath) (h : t ≠ ['.', '.']) :
    normStep (t :: ts) ['.', '.'] = ts := by
  unfold normStep
  rw [if_neg (by decide), if_pos rfl, if_neg (List.cons_ne_nil _ _),
    List.headI_cons, if_neg h]
  rfl

theorem normFold_push (reals : List FPath) (acc : List FPath)
    (h : ∀ s ∈ reals, s ≠ ['.'] ∧ s ≠ ['.', '.']) :
    reals.foldl normStep acc = reals.reverse ++ acc := by
  induction reals generalizing acc with
  | nil => simp
  | cons s rest ih =>
    rw [List.foldl_cons]
    have hs := h s (List.mem_cons_self s rest)
    have hstep : normStep acc s = s :: acc := by
      unfold normStep
      rw [if_neg hs.1, if_neg hs.2]
    rw [hstep, ih (s :: acc) (fun x hx => h x (List.mem_cons_of_mem s hx))]
    simp

theorem normFold_dds (k : Nat) (acc : List FPath)
    (h : acc = [] ∨ ∃ ts, acc = ['.', '.'] :: ts) :
    (List.replicate k (['.', '.'] : FPath)).foldl normStep acc =
      List.replicate k ['.', '.'] ++ acc := by
  induction k generalizing acc with
  | zero => simp
  | succ k ih =>
    rw [List.replicate_succ, List.foldl_cons]
    have hstep : normStep acc ['.', '.'] = ['.', '.'] :: acc := by
      rcases h with h | ⟨ts, h⟩ <;> subst h
      · exact normStep_dd_nil
      · exact normStep_dd_cons_dd ts
    rw [hstep, ih (['.', '.'] :: acc) (Or.inr ⟨acc, rfl⟩)]
    rw [List.append_cons, ← List.replicate_succ', List.replicate_succ, List.cons_append]

theorem normFold_shape (l : List FPath) : ∀ (accR : List FPath) (k : Nat),
    (∀ s ∈ accR, s ≠ ['.'] ∧ s ≠ ['.', '.']) →
    ∃ accR' k', l.foldl normStep (accR ++ List.replicate k ['.', '.']) =
        accR' ++ List.replicate k' ['.', '.'] ∧
      ∀ s ∈ accR', s ≠ ['.'] ∧ s ≠ ['.', '.'] := by
  induction l with
  | nil =>
    intro accR k h
    exact ⟨accR, k, rfl, h⟩
  | cons s rest ih =>
    intro accR k h
    rw [List.foldl_cons]
    by_cases hdot : s = ['.']
    · have hstep : normStep (accR ++ List.replicate k ['.', '.']) s =
          accR ++ List.replicate k ['.', '.'] := by
        unfold normStep
        rw [if_pos hdot]
      rw [hstep]
      exact ih accR k h
    · by_cases hdd : s = ['.', '.']
      · subst hdd
        cases accR with
        | nil =>
          cases k with
          | zero =>
            have hstep : normStep (([] : List FPath) ++ List.replicate 0 ['.', '.'])
                ['.', '.'] = [] ++ List.replicate 1 ['.', '.'] := rfl
            rw [hstep]
            exact ih [] 1 (by simp)
          | succ k =>
            have hstep : normStep (([] : List FPath) ++ List.replicate (k + 1) ['.', '.'])
                ['.', '.'] = [] ++ List.replicate (k + 2) ['.', '.'] := by
              rw [List.nil_append, List.nil_append, List.replicate_succ,
                normStep_dd_cons_dd, ← List.replicate_succ, ← List.replicate_succ]
            rw [hstep]
            exact ih [] (k + 2) (by simp)
        | cons a as =>
          have ha := h a (List.mem_cons_self a as)
          have hstep : normStep ((a :: as) ++ List.replicate k ['.', '.']) ['.', '.'] =
              as ++ List.replicate k ['.', '.'] := by
            rw [List.cons_append, normStep_dd_cons_real a _ ha.2]
          rw [hstep]
          exact ih as k (fun x hx => h x (List.mem_cons_of_mem a hx))
      · have hstep : normStep (accR ++ List.replicate k ['.', '.']) s =
            (s :: accR) ++ List.replicate k ['.', '.'] := by
          unfold normStep
          rw [if_neg hdot, if_neg hdd, List.cons_append]
        rw [hstep]
        refine ih (s :: accR) k ?_
        intro x hx
        rcases List.mem_cons.mp hx with hx | hx
        · exact hx ▸ ⟨hdot, hdd⟩
        · exact h x hx

theorem normSegs_shape (l : List FPath) :
    ∃ k reals, normSegs l = List.replicate k ['.', '.'] ++ reals ∧
      ∀ s ∈ reals, s ≠ ['.'] ∧ s ≠ ['.', '.'] := by
  obtain ⟨accR', k', heq, hmem⟩ := normFold_shape l [] 0 (by simp)
  refine ⟨k', accR'.reverse, ?_, ?_⟩
  · unfold normSegs
    have heq' : l.foldl normStep [] = accR' ++ List.replicate k' ['.', '.'] := by
      simpa using heq
    rw [heq', List.reverse_append, List.reverse_replicate]
  · intro s hs
    exact hmem s (List.mem_reverse.mp hs)

theorem normSegs_fixed (k : Nat) (reals : List FPath)
    (h : ∀ s ∈ reals, s ≠ ['.'] ∧ s ≠ ['.', '.']) :
    normSegs (List.replicate k ['.', '.'] ++ reals) =
      List.replicate k ['.', '.'] ++ reals := by
  unfold normSegs
  rw [List.foldl_append]
  have h1 : (List.replicate k (['.', '.'] : FPath)).foldl normStep [] =
      List.replicate k ['.', '.'] := by
    rw [normFold_dds k [] (Or.inl rfl), List.append_nil]
  rw [h1, normFold_push reals _ h, List.reverse_append, List.reverse_reverse,
    List.reverse_replicate]

theorem normSegs_idem (l : List FPath) : normSegs (normSegs l) = normSegs l := by
  obtain ⟨k, reals, heq, h⟩ := normSegs_shape l
  rw [heq, normSegs_fixed k reals h]

theorem normStep_mem (acc : List FPath) (x y : FPath) (hy : y ∈ normStep acc x) :
    y ∈ acc ∨ y = x := by
  by_cases h1 : x = ['.']
  · rw [h1, normStep_dot] at hy
    exact Or.inl hy
  · by_cases h2 : x = ['.', '.']
    · subst h2
      cases acc with
      | nil =>
        rw [normStep_dd_nil] at hy
        simp at hy
        exact Or.inr hy
      | cons t ts =>
        by_cases h3 : t = ['.', '.']
        · subst h3
          rw [normStep_dd_cons_dd] at hy
          rcases List.mem_cons.mp hy with hy | hy
          · exact Or.inr hy
          · exact Or.inl hy
        · rw [normStep_dd_cons_real t ts h3] at hy
          exact Or.inl (List.mem_cons_of_mem t hy)
    · rw [normStep_real acc x h1 h2] at hy
      rcases List.mem_cons.mp hy with hy | hy
      · exact Or.inr hy
      · exact Or.inl hy

theorem normFold_mem (l : List FPath) : ∀ (acc : List FPath) (y : FPath),
    y ∈ l.foldl normStep acc → y ∈ acc ∨ y ∈ l := by
  induction l with
  | nil =>
    intro acc y hy
    exact Or.inl hy
  | cons x rest ih =>
    intro acc y hy
    rw [List.foldl_cons] at hy
    rcases ih (normStep acc x) y hy with hy | hy
    · rcases normStep_mem acc x y hy with hy | hy
      · exact Or.inl hy
      · exact Or.inr (hy ▸ List.mem_cons_self x rest)
    · exact Or.inr (List.mem_cons_of_mem x hy)

theorem normSegs_sub (l : List FPath) (y : FPath) (hy : y ∈ normSegs l) : y ∈ l := by
  unfold normSegs at hy
  rcases normFold_mem l [] y (List.mem_reverse.mp hy) with h | h
  · simp at h
  · exact h

theorem normSegs_good (l : List FPath) (hl : ∀ s ∈ l, goodSeg s) :
    ∀ s ∈ normSegs l, goodSeg s :=
  fun s hs => hl s (normSegs_sub l s hs)

/-! Characterizations of `resolve_one` in each mode. -/

theorem normSplit_good (p : FPath) : ∀ s ∈ normSegs (splitSegs p), goodSeg s :=
  normSegs_good _ (splitSegs_good p)

theorem winPreFind_nil : winPreFind [] = none := rfl

theorem fpResolve_nil_right (p : FPath) :
    fpResolve p [] = renderPath (startsWithSep p) (normSegs (splitSegs p)) := by
  unfold fpResolve
  rw [if_neg (by decide : ¬ startsWithSep ([] : FPath) = true)]
  rw [show splitSegs ([] : FPath) = [] from rfl, List.append_nil]

theorem resolve_one_Default (p : FPath) :
    resolve_one p OsPathManipulation.Default =
      renderPath (startsWithSep p) (normSegs (splitSegs p)) := by
  show fpResolve p [] = _
  exact fpResolve_nil_right p

theorem resolve_one_Windows_none (p : FPath) (h : winPreFind p = none) :
    resolve_one p OsPathManipulation.Windows =
      renderPath (startsWithSep p) (normSegs (splitSegs p)) := by
  show resolve p [] OsPathManipulation.Windows = _
  unfold resolve
  rw [show ([p, ([] : FPath)].filter (fun x => (winPreFind x).isSome)) = [] from by
    simp [List.filter_cons, h, winPreFind_nil]]
  exact fpResolve_nil_right p

theorem resolve_one_Windows_some (p pre : FPath) (h : winPreFind p = some pre) :
    resolve_one p OsPathManipulation.Windows =
      reattach pre (renderPath true (normSegs (splitSegs (p.drop pre.length)))) := by
  show resolve p [] OsPathManipulation.Windows = _
  unfold resolve
  rw [show ([p, ([] : FPath)].filter (fun x => (winPreFind x).isSome)) = [p] from by
    simp [List.filter_cons, h, winPreFind_nil]]
  show reattach ((winPreFind p).getD []) (fpResolve (stripWin p) (stripWin [])) = _
  have h1 : (winPreFind p).getD [] = pre := by rw [h]; rfl
  have h2 : stripWin p = '/' :: p.drop pre.length := by unfold stripWin; rw [h]
  have h3 : stripWin [] = [] := rfl
  rw [h1, h2, h3, fpResolve_nil_right, splitSegs_sep_cons '/' _ isSep_slash]
  rw [show startsWithSep ('/' :: p.drop pre.length) = true from rfl]

/-! Structure of the prefix matcher and idempotence of `resolve_one`. -/

theorem winPreFind_cons_cons (a b : Char) (rest : FPath) :
    winPreFind (a :: b :: rest) =
      if a = '\\' ∧ b = '\\' then some ['\\', '\\']
      else if isAsciiLetter a = true ∧ b = ':' then some [a, ':']
      else none := rfl

theorem winPreFind_unc (rest : FPath) :
    winPreFind ('\\' :: '\\' :: rest) = some ['\\', '\\'] := by
  rw [winPreFind_cons_cons, if_pos ⟨rfl, rfl⟩]

theorem winPreFind_drive (c : Char) (rest : FPath) (h : isAsciiLetter c = true) :
    winPreFind (c :: ':' :: rest) = some [c, ':'] := by
  rw [winPreFind_cons_cons, if_neg (fun hx => absurd hx.2 (by decide)), if_pos ⟨h, rfl⟩]

theorem winPreFind_spec (p pre : FPath) (h : winPreFind p = some pre) :
    (pre = ['\\', '\\'] ∧ ∃ rest, p = '\\' :: '\\' :: rest) ∨
    (∃ c rest, pre = [c, ':'] ∧ isAsciiLetter c = true ∧ p = c :: ':' :: rest) := by
  match p with
  | [] => exact absurd h (by simp [winPreFind_nil])
  | [a] => exact absurd h (by simp [winPreFind])
  | a :: b :: rest =>
    rw [winPreFind_cons_cons] at h
    by_cases h1 : a = '\\' ∧ b = '\\'
    · rw [if_pos h1] at h
      exact Or.inl ⟨(Option.some_inj.mp h).symm, rest, by rw [h1.1, h1.2]⟩
    · rw [if_neg h1] at h
      by_cases h2 : isAsciiLetter a = true ∧ b = ':'
      · rw [if_pos h2] at h
        exact Or.inr ⟨a, rest, (Option.some_inj.mp h).symm, h2.1, by rw [h2.2]⟩
      · rw [if_neg h2] at h
        exact absurd h (by simp)

theorem reattach_unc (r : FPath) : reattach ['\\', '\\'] r = '\\' :: '\\' :: r.drop 1 := by
  unfold reattach
  rw [show uncMarker = (['\\', '\\'] : FPath) from rfl, if_pos rfl]
  rfl

theorem reattach_not_unc (pre r : FPath) (h : pre ≠ uncMarker) :
    reattach pre r = pre ++ r := by
  unfold reattach
  rw [if_neg h]

theorem resolve_one_Default_idem (p : FPath) :
    resolve_one (resolve_one p OsPathManipulation.Default) OsPathManipulation.Default =
      resolve_one p OsPathManipulation.Default := by
  rw [resolve_one_Default p, resolve_one_Default]
  rw [splitSegs_renderPath _ _ (normSplit_good p),
    startsWithSep_renderPath _ _ (normSplit_good p), normSegs_idem]

theorem resolve_one_Windows_idem_none (p : FPath) (h : winPreFind p = none)
    (h2 : winPreFind (resolve_one p OsPathManipulation.Windows) = none) :
    resolve_one (resolve_one p OsPathManipulation.Windows) OsPathManipulation.Windows =
      resolve_one p OsPathManipulation.Windows := by
  rw [resolve_one_Windows_none p h] at h2 ⊢
  rw [resolve_one_Windows_none _ h2]
  rw [splitSegs_renderPath _ _ (normSplit_good p),
    startsWithSep_renderPath _ _ (normSplit_good p), normSegs_idem]

theorem resolve_one_Windows_idem_unc (rest : FPath) :
    resolve_one (resolve_one ('\\' :: '\\' :: rest) OsPathManipulation.Windows)
        OsPathManipulation.Windows =
      resolve_one ('\\' :: '\\' :: rest) OsPathManipulation.Windows := by
  have h := winPreFind_unc rest
  have hq : resolve_one ('\\' :: '\\' :: rest) OsPathManipulation.Windows =
      '\\' :: '\\' :: joinSegs (normSegs (splitSegs rest)) := by
    rw [resolve_one_Windows_some _ _ h]
    show reattach ['\\', '\\'] (renderPath true (normSegs (splitSegs rest))) = _
    rw [reattach_unc]
    rfl
  rw [hq]
  rw [resolve_one_Windows_some _ _ (winPreFind_unc (joinSegs (normSegs (splitSegs rest))))]
  show reattach ['\\', '\\']
      (renderPath true (normSegs (splitSegs (joinSegs (normSegs (splitSegs rest)))))) = _
  rw [splitSegs_joinSegs _ (normSplit_good rest), normSegs_idem, reattach_unc]
  rfl

theorem resolve_one_Windows_idem_drive (c : Char) (rest : FPath)
    (hc : isAsciiLetter c = true) :
    resolve_one (resolve_one (c :: ':' :: rest) OsPathManipulation.Windows)
        OsPathManipulation.Windows =
      resolve_one (c :: ':' :: rest) OsPathManipulation.Windows := by
  have h := winPreFind_drive c rest hc
  have hne : ([c, ':'] : FPath) ≠ uncMarker := by
    simp [uncMarker]
  have hq : resolve_one (c :: ':' :: rest) OsPathManipulation.Windows =
      c :: ':' :: '/' :: joinSegs (normSegs (splitSegs rest)) := by
    rw [resolve_one_Windows_some _ _ h]
    show reattach [c, ':'] (renderPath true (normSegs (splitSegs rest))) = _
    rw [reattach_not_unc _ _ hne]
    rfl
  rw [hq]
  rw [resolve_one_Windows_some _ _
    (winPreFind_drive c ('/' :: joinSegs (normSegs (splitSegs rest))) hc)]
  show reattach [c, ':']
      (renderPath true (normSegs (splitSegs
        ('/' :: joinSegs (normSegs (splitSegs rest)))))) = _
  rw [splitSegs_sep_cons '/' _ isSep_slash,
    splitSegs_joinSegs _ (normSplit_good rest), normSegs_idem, reattach_not_unc _ _ hne]
  rfl

/-! Case analysis of the Windows branch of `resolve`. -/

theorem winPreOrSlashFind_nil : winPreOrSlashFind [] = none := rfl

theorem winPreOrSlashFind_singleton (a : Char) :
    winPreOrSlashFind [a] = if isSep a then some [a] else none := rfl

theorem winPreOrSlashFind_cons_cons (a b : Char) (rest : FPath) :
    winPreOrSlashFind (a :: b :: rest) =
      if a = '\\' ∧ b = '\\' then some ['\\', '\\']
      else if isAsciiLetter a = true ∧ b = ':' then some [a, ':']
      else if isSep a = true ∧ b ≠ '\\' then some [a, b]
      else none := rfl

theorem startsWithSep_of_abs_noPre (q : FPath)
    (habs : (winPreOrSlashFind q).isSome = true) (h : winPreFind q = none) :
    startsWithSep q = true := by
  match q with
  | [] => exact absurd habs (by simp [winPreOrSlashFind_nil])
  | [a] =>
    rw [winPreOrSlashFind_singleton] at habs
    by_cases ha : isSep a = true
    · exact ha
    · rw [if_neg ha] at habs
      simp at habs
  | a :: b :: rest =>
    rw [winPreFind_cons_cons] at h
    rw [winPreOrSlashFind_cons_cons] at habs
    by_cases h1 : a = '\\' ∧ b = '\\'
    · rw [if_pos h1] at h
      simp at h
    · rw [if_neg h1] at h habs
      by_cases h2 : isAsciiLetter a = true ∧ b = ':'
      · rw [if_pos h2] at h
        simp at h
      · rw [if_neg h2] at habs
        by_cases h3 : isSep a = true ∧ b ≠ '\\'
        · exact h3.1
        · rw [if_neg h3] at habs
          simp at habs

theorem fpResolve_abs_right (p1 p2 : FPath) (h : startsWithSep p2 = true) :
    fpResolve p1 p2 = renderPath true (normSegs (splitSegs p2)) := by
  unfold fpResolve
  rw [if_pos h]

theorem stripWin_none (p : FPath) (h : winPreFind p = none) : stripWin p = p := by
  unfold stripWin
  rw [h]

theorem stripWin_some (p pre : FPath) (h : winPreFind p = some pre) :
    stripWin p = '/' :: p.drop pre.length := by
  unfold stripWin
  rw [h]

theorem resolve_Windows_last2 (p1 p2 pre : FPath) (h2 : winPreFind p2 = some pre) :
    resolve p1 p2 OsPathManipulation.Windows =
      reattach pre (fpResolve (stripWin p1) (stripWin p2)) := by
  unfold resolve
  cases h1 : winPreFind p1 with
  | some pre1 =>
    rw [show ([p1, p2].filter (fun x => (winPreFind x).isSome)) = [p1, p2] from by
      simp [List.filter_cons, h1, h2]]
    show reattach ((winPreFind p2).getD []) (fpResolve (stripWin p1) (stripWin p2)) = _
    rw [h2]
    rfl
  | none =>
    rw [show ([p1, p2].filter (fun x => (winPreFind x).isSome)) = [p2] from by
      simp [List.filter_cons, h1, h2]]
    show reattach ((winPreFind p2).getD []) (fpResolve (stripWin p1) (stripWin p2)) = _
    rw [h2]
    rfl

theorem resolve_Windows_last1 (p1 p2 pre : FPath) (h1 : winPreFind p1 = some pre)
    (h2 : winPreFind p2 = none) :
    resolve p1 p2 OsPathManipulation.Windows =
      reattach pre (fpResolve (stripWin p1) (stripWin p2)) := by
  unfold resolve
  rw [show ([p1, p2].filter (fun x => (winPreFind x).isSome)) = [p1] from by
    simp [List.filter_cons, h1, h2]]
  show reattach ((winPreFind p1).getD []) (fpResolve (stripWin p1) (stripWin p2)) = _
  rw [h1]
  rfl

theorem resolve_Windows_nopre (p1 p2 : FPath) (h1 : winPreFind p1 = none)
    (h2 : winPreFind p2 = none) :
    resolve p1 p2 OsPathManipulation.Windows = fpResolve p1 p2 := by
  unfold resolve
  rw [show ([p1, p2].filter (fun x => (winPreFind x).isSome)) = [] from by
    simp [List.filter_cons, h1, h2]]
  rfl

/-! Claim theorems. -/

/-- C9: for every mode `m`, `resolve_n [] m` is the empty string,
`resolve_n [p] m` is `resolve p "" m`, and for two or more paths
`resolve_n` is the left fold resolving the first two paths and then each
subsequent path against the running result, in order. -/
theorem c9_resolve_n_fold (m : OsPathManipulation) (p q : FPath) (rest : List FPath) :
    resolve_n [] m = [] ∧
    resolve_n [p] m = resolve p [] m ∧
    resolve_n (p :: q :: rest) m = rest.foldl (fun a b => resolve a b m) (resolve p q m) :=
  ⟨rfl, rfl, rfl⟩

/-- C4: `relative from to Windows` aborts (modelled as `none`) exactly when
at least one of `from` and `to` is not absolute under `is_absolute`; when
both are absolute it returns a string. -/
theorem c4_relative_abort_iff (f t : FPath) :
    relative f t OsPathManipulation.Windows = none ↔
      ¬(is_absolute f OsPathManipulation.Windows = true ∧
        is_absolute t OsPathManipulation.Windows = true) := by
  constructor
  · intro h hc
    obtain ⟨hf, ht⟩ := hc
    have hcond : (is_absolute f OsPathManipulation.Windows &&
        is_absolute t OsPathManipulation.Windows) = true := by rw [hf, ht]; rfl
    unfold relative at h
    rw [if_pos hcond] at h
    by_cases hne : (winPreOrSlashFind f).getD [] ≠ (winPreOrSlashFind t).getD []
    · rw [if_pos hne] at h
      exact Option.noConfusion h
    · rw [if_neg hne] at h
      exact Option.noConfusion h
  · intro h
    have hcond : ¬(is_absolute f OsPathManipulation.Windows &&
        is_absolute t OsPathManipulation.Windows) = true := by
      intro hc
      rw [Bool.and_eq_true] at hc
      exact h hc
    unfold relative
    rw [if_neg hcond]

/-- C5: for absolute `from` and `to` under Windows mode whose extracted
prefixes differ textually, `relative` returns `resolve_one to Windows`, the
fully resolved absolute target. -/
theorem c5_cross_root_fallback (f t : FPath)
    (hf : is_absolute f OsPathManipulation.Windows = true)
    (ht : is_absolute t OsPathManipulation.Windows = true)
    (hne : (winPreOrSlashFind f).getD [] ≠ (winPreOrSlashFind t).getD []) :
    relative f t OsPathManipulation.Windows =
      some (resolve_one t OsPathManipulation.Windows) := by
  unfold relative
  rw [if_pos (show (is_absolute f OsPathManipulation.Windows &&
      is_absolute t OsPathManipulation.Windows) = true by rw [hf, ht]; rfl)]
  rw [if_pos hne]

theorem c5_cross_root_fallback_witness :
    relative "C:/".toList "\\\\foo".toList OsPathManipulation.Windows =
      some (resolve_one "\\\\foo".toList OsPathManipulation.Windows) :=
  c5_cross_root_fallback _ _ (by decide) (by decide) (by decide)

/-- C6: for absolute `from` and `to` under Windows mode with textually
equal extracted prefixes, `relative` strips that prefix from both, re-roots
any stripped remainder that does not already start with a separator, and
delegates to the generic relative computation. -/
theorem c6_same_root_strip (f t : FPath)
    (hf : is_absolute f OsPathManipulation.Windows = true)
    (ht : is_absolute t OsPathManipulation.Windows = true)
    (heq : (winPreOrSlashFind f).getD [] = (winPreOrSlashFind t).getD []) :
    relative f t OsPathManipulation.Windows =
      some (fpRelative
        (ensureLeadingSep (f.drop ((winPreOrSlashFind f).getD []).length))
        (ensureLeadingSep (t.drop ((winPreOrSlashFind f).getD []).length))) := by
  unfold relative
  rw [if_pos (show (is_absolute f OsPathManipulation.Windows &&
      is_absolute t OsPathManipulation.Windows) = true by rw [hf, ht]; rfl)]
  rw [if_neg (not_not_intro heq)]

theorem c6_same_root_strip_witness :
    relative "C:/a".toList "C:".toList OsPathManipulation.Windows =
      some (fpRelative (ensureLeadingSep (("C:/a".toList).drop 2))
        (ensureLeadingSep (("C:".toList).drop 2))) :=
  c6_same_root_strip "C:/a".toList "C:".toList (by decide) (by decide) (by decide)

/-- C7: in Windows-mode `resolve`, when both inputs carry a recognized UNC
or drive prefix the reattached prefix is `path2`'s, not `path1`'s; when
exactly one input carries such a prefix, that input's prefix is
reattached. -/
theorem c7_later_path_wins (p1 p2 : FPath) :
    ((winPreFind p1).isSome = true → (winPreFind p2).isSome = true →
      resolve p1 p2 OsPathManipulation.Windows =
        reattach ((winPreFind p2).getD [])
          (fpResolve (stripWin p1) (stripWin p2))) ∧
    ((winPreFind p1).isSome = true → winPreFind p2 = none →
      resolve p1 p2 OsPathManipulation.Windows =
        reattach ((winPreFind p1).getD [])
          (fpResolve (stripWin p1) (stripWin p2))) ∧
    (winPreFind p1 = none → (winPreFind p2).isSome = true →
      resolve p1 p2 OsPathManipulation.Windows =
        reattach ((winPreFind p2).getD [])
          (fpResolve (stripWin p1) (stripWin p2))) := by
  refine ⟨?_, ?_, ?_⟩
  · intro _ h2
    obtain ⟨pre2, hpre2⟩ := Option.isSome_iff_exists.mp h2
    rw [resolve_Windows_last2 p1 p2 pre2 hpre2, hpre2]
    rfl
  · intro h1 h2
    obtain ⟨pre1, hpre1⟩ := Option.isSome_iff_exists.mp h1
    rw [resolve_Windows_last1 p1 p2 pre1 hpre1 h2, hpre1]
    rfl
  · intro _ h2
    obtain ⟨pre2, hpre2⟩ := Option.isSome_iff_exists.mp h2
    rw [resolve_Windows_last2 p1 p2 pre2 hpre2, hpre2]
    rfl

theorem c7_later_path_wins_witness :
    resolve "C:/".toList "D:/".toList OsPathManipulation.Windows =
      reattach ((winPreFind "D:/".toList).getD [])
        (fpResolve (stripWin "C:/".toList) (stripWin "D:/".toList)) :=
  (c7_later_path_wins "C:/".toList "D:/".toList).1 (by decide) (by decide)

/-- C10: in Windows-mode `resolve`, when at least one input matches the
UNC-or-drive pattern, the last prefixed path exists and matches the pattern
(so the `find(...).unwrap()` succeeds), and the generic resolution of the
two stripped inputs is a non-empty string beginning with `/` (so the byte
slice `r[1..]` in the UNC reattachment branch is in bounds). -/
theorem c10_unc_branch_safety (p1 p2 : FPath)
    (h : (winPreFind p1).isSome = true ∨ (winPreFind p2).isSome = true) :
    (∃ lastP, ([p1, p2].filter (fun p => (winPreFind p).isSome)).getLast? = some lastP ∧
      (winPreFind lastP).isSome = true) ∧
    (fpResolve (stripWin p1) (stripWin p2)).head? = some '/' := by
  constructor
  · cases h2 : winPreFind p2 with
    | some pre2 =>
      cases h1 : winPreFind p1 with
      | some pre1 =>
        refine ⟨p2, ?_, by rw [h2]; rfl⟩
        rw [show ([p1, p2].filter (fun x => (winPreFind x).isSome)) = [p1, p2] from by
          simp [List.filter_cons, h1, h2]]
        rfl
      | none =>
        refine ⟨p2, ?_, by rw [h2]; rfl⟩
        rw [show ([p1, p2].filter (fun x => (winPreFind x).isSome)) = [p2] from by
          simp [List.filter_cons, h1, h2]]
        rfl
    | none =>
      cases h1 : winPreFind p1 with
      | some pre1 =>
        refine ⟨p1, ?_, by rw [h1]; rfl⟩
        rw [show ([p1, p2].filter (fun x => (winPreFind x).isSome)) = [p1] from by
          simp [List.filter_cons, h1, h2]]
        rfl
      | none =>
        rw [h1, h2] at h
        simp at h
  · cases h2 : winPreFind p2 with
    | some pre2 =>
      rw [stripWin_some p2 pre2 h2,
        fpResolve_abs_right _ _ (show startsWithSep ('/' :: p2.drop pre2.length) = true
          from rfl)]
      rfl
    | none =>
      rw [stripWin_none p2 h2]
      by_cases hsw : startsWithSep p2 = true
      · rw [fpResolve_abs_right _ _ hsw]
        rfl
      · cases h1 : winPreFind p1 with
        | some pre1 =>
          rw [stripWin_some p1 pre1 h1]
          unfold fpResolve
          rw [if_neg hsw,
            show startsWithSep ('/' :: p1.drop pre1.length) = true from rfl]
          rfl
        | none =>
          rw [h1, h2] at h
          simp at h

theorem c10_unc_branch_safety_witness :
    (∃ lastP, (["a".toList, "\\\\x".toList].filter
        (fun p => (winPreFind p).isSome)).getLast? = some lastP ∧
      (winPreFind lastP).isSome = true) ∧
    (fpResolve (stripWin "a".toList) (stripWin "\\\\x".toList)).head? = some '/' :=
  c10_unc_branch_safety "a".toList "\\\\x".toList (Or.inr (by decide))

/-- C1, counterexample: `q = "/foo"` is absolute under Windows mode, yet
with `p = "C:/bar"` carrying a drive prefix, `resolve p q Windows` is
`"C:/foo"`, not `resolve_one q Windows = "/foo"`. -/
theorem c1_absolute_override_cex :
    is_absolute "/foo".toList OsPathManipulation.Windows = true ∧
    resolve "C:/bar".toList "/foo".toList OsPathManipulation.Windows = "C:/foo".toList ∧
    resolve_one "/foo".toList OsPathManipulation.Windows = "/foo".toList ∧
    resolve "C:/bar".toList "/foo".toList OsPathManipulation.Windows ≠
      resolve_one "/foo".toList OsPathManipulation.Windows := by
  decide

/-- C1, amended: for absolute `q`, `resolve p q m = resolve_one q m`
whenever `m` is Default mode, or `q` itself matches the UNC-or-drive
pattern, or `p` does not; the exception is Windows mode with `q` absolute
only by a leading separator while `p` carries a UNC or drive prefix. -/
theorem c1_absolute_override_amended (m : OsPathManipulation) (p q : FPath)
    (habs : is_absolute q m = true)
    (h : m = OsPathManipulation.Default ∨ (winPreFind q).isSome = true ∨
      winPreFind p = none) :
    resolve p q m = resolve_one q m := by
  cases m with
  | Default =>
    have hq : startsWithSep q = true := habs
    show fpResolve p q = _
    rw [fpResolve_abs_right p q hq, resolve_one_Default q, hq]
  | Windows =>
    cases hq : winPreFind q with
    | some pre =>
      rw [resolve_Windows_last2 p q pre hq, resolve_one_Windows_some q pre hq,
        stripWin_some q pre hq,
        fpResolve_abs_right _ _ (show startsWithSep ('/' :: q.drop pre.length) = true
          from rfl),
        splitSegs_sep_cons '/' _ isSep_slash]
    | none =>
      have hp : winPreFind p = none := by
        rcases h with h | h | h
        · cases h
        · rw [hq] at h
          simp at h
        · exact h
      have hsw : startsWithSep q = true := startsWithSep_of_abs_noPre q habs hq
      rw [resolve_Windows_nopre p q hp hq, resolve_one_Windows_none q hq,
        fpResolve_abs_right p q hsw, hsw]

theorem c1_absolute_override_witness :
    is_absolute "C:/x".toList OsPathManipulation.Windows = true ∧
    resolve "a".toList "C:/x".toList OsPathManipulation.Windows =
      resolve_one "C:/x".toList OsPathManipulation.Windows :=
  ⟨by decide, c1_absolute_override_amended OsPathManipulation.Windows "a".toList
    "C:/x".toList (by decide) (Or.inr (Or.inl (by decide)))⟩

/-- C2, counterexample: in `resolve "C:/a" "\\s/x" Windows` the chosen
prefix is the UNC marker and `"C:/a"` does not start with it, yet the strip
step rewrites `"C:/a"` to `"//a"` (it strips the whole UNC-or-drive
pattern, not just the chosen prefix), so the input is not left untouched. -/
theorem c2_strip_step_cex :
    (["C:/a".toList, "\\\\s/x".toList].filter
        (fun p => (winPreFind p).isSome)).getLast? = some "\\\\s/x".toList ∧
    winPreFind "\\\\s/x".toList = some uncMarker ∧
    ("C:/a".toList).take 2 ≠ uncMarker ∧
    stripWin "C:/a".toList = "//a".toList ∧
    stripWin "C:/a".toList ≠ "C:/a".toList := by
  decide

/-- C2, amended: the strip step replaces a textual match of the
UNC-or-drive pattern at the start of each input — whichever prefix form
that input itself carries, not only the chosen prefix — with `/`; an input
matching neither prefix form is left untouched. -/
theorem c2_strip_step_amended (p pre : FPath) :
    (winPreFind p = none → stripWin p = p) ∧
    (winPreFind p = some pre →
      p.take pre.length = pre ∧ stripWin p = '/' :: p.drop pre.length) := by
  constructor
  · exact stripWin_none p
  · intro h
    refine ⟨?_, stripWin_some p pre h⟩
    rcases winPreFind_spec p pre h with ⟨hpre, rest, hp⟩ | ⟨c, rest, hpre, hc, hp⟩
    · subst hp
      rw [hpre]
      rfl
    · subst hp
      rw [hpre]
      rfl

theorem c2_strip_step_witness :
    ("C:/a".toList).take 2 = ['C', ':'] ∧
    stripWin "C:/a".toList = '/' :: ("C:/a".toList).drop 2 :=
  (c2_strip_step_amended "C:/a".toList ['C', ':']).2 (by decide)

/-- C3, counterexample: under Windows mode the matcher extracts `"/a"`
(two characters) from the rooted path `"/ax"`, not the bare separator, so
`"/ax"` and `"/by"` get different prefixes and `relative` falls back to
the resolved absolute target `"/by"`. -/
theorem c3_slash_matcher_cex :
    winPreOrSlashFind "/ax".toList = some ['/', 'a'] ∧
    winPreOrSlashFind "/ax".toList ≠ some ['/'] ∧
    winPreOrSlashFind "/by".toList = some ['/', 'b'] ∧
    winPreOrSlashFind "/ax".toList ≠ winPreOrSlashFind "/by".toList ∧
    relative "/ax".toList "/by".toList OsPathManipulation.Windows =
      some ("/by".toList) := by
  decide

/-- C3, amended: for a path that starts with a separator not followed by a
second backslash, the matcher extracts the separator together with the
following character; the separator alone is extracted only when the path is
exactly that one-character separator. -/
theorem c3_slash_matcher_amended (c d : Char) (rest : FPath)
    (hc : isSep c = true) (hd : d ≠ '\\') :
    winPreOrSlashFind (c :: d :: rest) = some [c, d] ∧
    winPreOrSlashFind [c] = some [c] := by
  constructor
  · rw [winPreOrSlashFind_cons_cons]
    have h1 : ¬(c = '\\' ∧ d = '\\') := fun hx => hd hx.2
    have h2 : ¬(isAsciiLetter c = true ∧ d = ':') := by
      intro hx
      have hcl : isAsciiLetter c = false := by
        rcases (by simpa [isSep] using hc : c = '/' ∨ c = '\\') with h | h <;>
          subst h <;> decide
      rw [hcl] at hx
      exact absurd hx.1 (by decide)
    rw [if_neg h1, if_neg h2, if_pos ⟨hc, hd⟩]
  · rw [winPreOrSlashFind_singleton, if_pos hc]

theorem c3_slash_matcher_witness :
    winPreOrSlashFind "/ax".toList = some ['/', 'a'] ∧
    winPreOrSlashFind ['/'] = some ['/'] :=
  c3_slash_matcher_amended '/' 'a' ['x'] (by decide) (by decide)

/-- C8, counterexample: `resolve_one "./C:" Windows` is `"C:"`, but a
second application yields `"C:/"`, so `resolve_one` is not idempotent under
Windows mode. -/
theorem c8_idem_cex :
    resolve_one "./C:".toList OsPathManipulation.Windows = "C:".toList ∧
    resolve_one (resolve_one "./C:".toList OsPathManipulation.Windows)
        OsPathManipulation.Windows = "C:/".toList ∧
    resolve_one (resolve_one "./C:".toList OsPathManipulation.Windows)
        OsPathManipulation.Windows ≠
      resolve_one "./C:".toList OsPathManipulation.Windows := by
  decide

/-- C8, amended: `resolve_one` is idempotent under Default mode, and under
Windows mode whenever the path itself carries a UNC or drive prefix or its
first resolution does not; the exception is an unprefixed path whose
normalization begins with a drive marker, such as `"./C:"`. -/
theorem c8_idem_amended (m : OsPathManipulation) (p : FPath)
    (h : m = OsPathManipulation.Default ∨ (winPreFind p).isSome = true ∨
      winPreFind (resolve_one p m) = none) :
    resolve_one (resolve_one p m) m = resolve_one p m := by
  cases m with
  | Default => exact resolve_one_Default_idem p
  | Windows =>
    cases hp : winPreFind p with
    | some pre =>
      rcases winPreFind_spec p pre hp with ⟨hpre, rest, hpeq⟩ | ⟨c, rest, hpre, hc, hpeq⟩
      · subst hpeq
        exact resolve_one_Windows_idem_unc rest
      · subst hpeq
        exact resolve_one_Windows_idem_drive c rest hc
    | none =>
      have h2 : winPreFind (resolve_one p OsPathManipulation.Windows) = none := by
        rcases h with h | h | h
        · cases h
        · rw [hp] at h
          simp at h
        · exact h
      exact resolve_one_Windows_idem_none p hp h2

theorem c8_idem_witness :
    (winPreFind "C:/a".toList).isSome = true ∧
    resolve_one (resolve_one "C:/a".toList OsPathManipulation.Windows)
        OsPathManipulation.Windows =
      resolve_one "C:/a".toList OsPathManipulation.Windows :=
  ⟨by decide, c8_idem_amended OsPathManipulation.Windows "C:/a".toList
    (Or.inr (Or.inl (by decide)))⟩
